import Mathlib

/-!
# Verification of the autonomous-coding task orchestration engine

A shallow embedding, in Lean 4, of the task data model, the `TaskManager`
persistence layer, the `TaskRefiner`, and the orchestrator's per-iteration
control flow of `src/autonomous-coding` (`task.py`, `task_manager.py`,
`refiner.py`, `agent.py`).

Modelling conventions:
* Python dictionaries that describe a task (as produced by the JSON oracle,
  `model_dump`, or the persisted `tasks.json`) are modelled by `TaskDict`.
  A key that may be absent is an outer `Option`: `status = none` means the
  dictionary has no `"status"` key (so `SubTask.__init__` applies its
  default), and `updated_time = none` means the key is absent, while
  `updated_time = some none` means the key is present with value `null`.
* Persistence (`save_tasks` / `load_tasks`) is modelled by an explicit
  serialized document `SavedDoc`; the `saved` field of `TMState` holds the
  document most recently written to `tasks.json`.
* The oracle, the shell executor and git are external collaborators: their
  outcomes are inputs of the step functions (a timeout or a raised
  exception becomes an explicit variant).
* Filesystem paths are PurePosixPath-style component lists: splitting on
  `/` drops empty and `"."` components and keeps `".."`, which matches
  `pathlib` normalization.
-/

set_option autoImplicit false

namespace AutoCoding

/-- Embedding of `task.SubTask`: the six fields of a task.
`updated_time` is `Option String` because the Python attribute may be
`None`. No validation is performed by the constructor (as in the source). -/
structure SubTask where
  id : String
  title : String
  description : String
  test_command : String
  status : String
  updated_time : Option String
  deriving DecidableEq, Repr

/-- A Python task dictionary. Outer `Option` on `status` and
`updated_time` records whether the key is present at all. -/
structure TaskDict where
  id : String
  title : String
  description : String
  test_command : String
  status : Option String
  updated_time : Option (Option String)
  deriving DecidableEq, Repr

/-- `SubTask(**task_dict)`: a missing `"status"` key defaults to
`"pending"`, a missing `"updated_time"` key defaults to `None`
(`task.py` lines 14-28). -/
def subTaskOfDict (d : TaskDict) : SubTask :=
  { id := d.id
    title := d.title
    description := d.description
    test_command := d.test_command
    status := d.status.getD "pending"
    updated_time := d.updated_time.getD none }

/-- `SubTask.model_dump(exclude_none=False)`: every key is present in the
resulting dictionary (`task.py` lines 30-50). -/
def dumpSubTask (t : SubTask) : TaskDict :=
  { id := t.id
    title := t.title
    description := t.description
    test_command := t.test_command
    status := some t.status
    updated_time := some t.updated_time }

/-- The JSON document written by `save_tasks`: `{"requirement": ...,
"tasks": [...]}` with every task key present. -/
structure SavedDoc where
  requirement : String
  tasks : List TaskDict
  deriving DecidableEq, Repr

/-- The in-memory state of a `TaskManager` together with the most recently
persisted document (`none` if `save_tasks` has not run yet). -/
structure TMState where
  tasks : List SubTask
  requirement : String
  saved : Option SavedDoc
  deriving DecidableEq, Repr

/-- `save_tasks` (`task_manager.py` lines 50-62): serialize the full state
with `model_dump(exclude_none=False)`. -/
def saveDocOf (tasks : List SubTask) (requirement : String) : SavedDoc :=
  { requirement := requirement, tasks := tasks.map dumpSubTask }

/-- Mark a state as persisted: every mutating `TaskManager` operation ends
with `self.save_tasks()`. -/
def persist (tasks : List SubTask) (requirement : String) : TMState :=
  { tasks := tasks, requirement := requirement
    saved := some (saveDocOf tasks requirement) }

/-- The dictionary branch of `load_tasks` (`task_manager.py` lines 33-41)
applied to a saved document: each task dictionary gets
`updated_time = None` when the key is absent, then `SubTask(**task_dict)`;
the requirement is read back. Returns the reconstructed task list and
requirement. -/
def loadStateOfDoc (d : SavedDoc) : List SubTask × String :=
  (d.tasks.map subTaskOfDict, d.requirement)

/-- `{t.id: t for t in self.tasks}` followed by a lookup: in a Python dict
comprehension a later task with the same id overwrites an earlier one, so
the lookup returns the LAST task with the given id. -/
def lookupLast (tasks : List SubTask) (i : String) : Option SubTask :=
  tasks.reverse.find? (fun t => t.id == i)

/-- The per-dictionary patch of `set_tasks` (`task_manager.py` lines
75-85): when the incoming dictionary omits `updated_time`, carry over the
matching existing task's value, or `None` when the id is new. -/
def setTasksPatch (old : List SubTask) (d : TaskDict) : TaskDict :=
  match lookupLast old d.id with
  | some ex =>
      if d.updated_time = none then { d with updated_time := some ex.updated_time } else d
  | none =>
      if d.updated_time = none then { d with updated_time := some none } else d

/-- `TaskManager.set_tasks` (`task_manager.py` lines 64-90): rebuild the
task list from dictionaries, carry over `updated_time` by id, replace the
requirement only when a truthy (non-`None`, non-empty) value is supplied,
and persist. -/
def setTasks (st : TMState) (ts : List TaskDict) (requirement : Option String) : TMState :=
  let newTasks := ts.map (fun d => subTaskOfDict (setTasksPatch st.tasks d))
  let newReq := match requirement with
    | some r => if r = "" then st.requirement else r
    | none => st.requirement
  persist newTasks newReq

/-- Update the first list element satisfying `p` (the `for ... break`
pattern of `update_task_status`). -/
def updateFirst (p : SubTask → Bool) (f : SubTask → SubTask) : List SubTask → List SubTask
  | [] => []
  | t :: ts => if p t then f t :: ts else t :: updateFirst p f ts

/-- `TaskManager.update_task_status` (`task_manager.py` lines 104-117):
set the status of the first task with the given id, stamp `updated_time`
with the current time, persist (also persists when the id is absent). -/
def updateTaskStatus (st : TMState) (taskId status now : String) : TMState :=
  persist
    (updateFirst (fun t => t.id == taskId)
      (fun t => { t with status := status, updated_time := some now }) st.tasks)
    st.requirement

/-- The stamping step of `add_task`: `if not task.updated_time:` is true
for `None` and for the empty string (Python falsiness). -/
def stampTime (t : SubTask) (now : String) : SubTask :=
  if t.updated_time = none ∨ t.updated_time = some "" then
    { t with updated_time := some now } else t

/-- `TaskManager.add_task` (`task_manager.py` lines 119-129): stamp
`updated_time` when it is falsy (`None` or the empty string), append at
the end, persist. -/
def addTask (st : TMState) (t : SubTask) (now : String) : TMState :=
  persist (st.tasks ++ [stampTime t now]) st.requirement

/-- `TaskManager.get_next_task` (`task_manager.py` lines 92-102): first
task whose status is `pending`, `failed` or `in_progress`. -/
def getNextTask (st : TMState) : Option SubTask :=
  st.tasks.find? (fun t =>
    t.status == "pending" || t.status == "failed" || t.status == "in_progress")

/-- Status of the first task with the given id, `none` if absent. -/
def statusOf (st : TMState) (i : String) : Option String :=
  (st.tasks.find? (fun t => t.id == i)).map SubTask.status

/-! ## Refiner (`refiner.py`) -/

/-- `{task.get("id"): task for task in tasks}` followed by a lookup:
last dictionary with the given id wins (Python dict comprehension). -/
def lookupLastDict (tasks : List TaskDict) (i : String) : Option TaskDict :=
  tasks.reverse.find? (fun t => t.id == i)

/-- The `updated_time` carry-over of the enforcement loop of
`TaskRefiner.refine` (`refiner.py` lines 103-104): copy the value when
the existing dictionary has the key and the proposed one does not. -/
def refineCarry (ex nt : TaskDict) : TaskDict :=
  if ex.updated_time.isSome ∧ nt.updated_time = none then
    { nt with updated_time := ex.updated_time } else nt

/-- One pass of the enforcement loop of `TaskRefiner.refine`
(`refiner.py` lines 99-106) for one proposed task: carry over
`updated_time`, and force the status back to `completed` when the
existing task of the same id has status `completed`. Reading
`existing_task["status"]` raises `KeyError` when the key is absent
(modelled by `none`), which aborts the whole refinement. -/
def refineStep (tasks : List TaskDict) (nt : TaskDict) : Option TaskDict :=
  match lookupLastDict tasks nt.id with
  | none => some nt
  | some ex =>
      match ex.status with
      | none => none
      | some s =>
          some (if s = "completed" then { refineCarry ex nt with status := some "completed" }
                else refineCarry ex nt)

/-- The outcome of `query_json` as seen by `refine`: `Except.error` for
any raised exception (timeout, oracle failure, unparseable JSON);
on success, `none` models a response without a `"tasks"` key. -/
abbrev JsonOracleResult := Except Unit (Option (List TaskDict))

/-- `TaskRefiner.refine` (`refiner.py` lines 93-111), as a function of the
input task list and the outcome of the single JSON-constrained oracle
call. Any exception inside the `try` block (a failed oracle call, or the
`KeyError` from `existing_task["status"]`) returns the input `tasks`
unchanged; a response without a `"tasks"` key falls back to `tasks` as
well (`response.get("tasks", tasks)`). The refiner never touches the
`TaskManager` state. -/
def refineModel (tasks : List TaskDict) (oracle : JsonOracleResult) : List TaskDict :=
  match oracle with
  | .error _ => tasks
  | .ok resp =>
      match (resp.getD tasks).mapM (refineStep tasks) with
      | none => tasks
      | some out => out

/-! ## Success policy (`agent.py` lines 227-239) -/

/-- The nine fixed error markers of `agent.py` line 231. -/
def errorPatterns : List String :=
  ["error", "Error", "ERROR", "failed", "Failed", "FAILED",
   "exception", "Exception", "EXCEPTION"]

/-- Python's substring test `needle in hay` on character lists. -/
def strContains (needle : List Char) : List Char → Bool
  | [] => needle.isEmpty
  | c :: t => needle.isPrefixOf (c :: t) || strContains needle t

/-- `any(pattern in output for pattern in error_patterns)`. -/
def hasError (output : String) : Bool :=
  errorPatterns.any (fun p => strContains p.data output.data)

/-- The pass decision of `agent.py` line 237: `exit_code == 0 and not
has_error`. -/
def taskPassed (exitCode : Int) (output : String) : Bool :=
  exitCode == 0 && !(hasError output)

/-! ## Path handling (`agent.py` lines 33-55 and 215-222)

`PurePosixPath`-style parsing: components are the `/`-separated pieces
with empty strings and `"."` dropped (`pathlib` removes both), `".."`
kept. A path is absolute when the raw string starts with `/`. -/

/-- Split a character list at every occurrence of `sep` (the semantics of
`str.split(sep)`: n separators yield n+1 pieces, possibly empty). -/
def splitOnChar (sep : Char) : List Char → List (List Char)
  | [] => [[]]
  | c :: cs =>
      match splitOnChar sep cs with
      | [] => [[c]]
      | h :: t => if c = sep then [] :: h :: t else (c :: h) :: t

/-- `str.strip()`: drop leading and trailing whitespace. -/
def pyTrim (s : String) : String :=
  ⟨((s.data.dropWhile Char.isWhitespace).reverse.dropWhile Char.isWhitespace).reverse⟩

/-- Components of `Path(s)` (after `.strip()` has been applied): the
`/`-separated pieces with empty strings and `"."` dropped, as
`PurePosixPath` normalizes. -/
def pathParts (s : String) : List String :=
  ((splitOnChar '/' s.data).map (fun l => (⟨l⟩ : String))).filter
    (fun c => !(c == "") && !(c == "."))

/-- `Path(s).is_absolute()`: the raw string starts with `/`. -/
def pathIsAbs (s : String) : Bool :=
  match s.data with
  | [] => false
  | c :: _ => c = '/'

/-- `Path(...).name`: the last component (`""` for the root path). -/
def pathName (parts : List String) : String :=
  (parts.getLast?).getD ""

/-- The path normalization of `parse_files_from_response` (`agent.py`
lines 46-53), with the project root given as its absolute component list:
strip the raw path; an absolute path lexically under the root is replaced
by its remainder relative to the root (`Path.relative_to`), any other
absolute path degrades to its base name, a relative path is kept as
parsed. Returns the relative component list later joined to the project
root by `run`. -/
def normalizeRespPath (root : List String) (raw : String) : List String :=
  let s := pyTrim raw
  let parts := pathParts s
  if pathIsAbs s then
    if root.isPrefixOf parts then parts.drop root.length
    else [pathName parts]
  else parts

/-- Join components with `/`. -/
def joinParts : List String → List Char
  | [] => []
  | [p] => p.data
  | p :: ps => p.data ++ '/' :: joinParts ps

/-- `str(path_obj)` for a relative component list (Python renders the
empty path as `"."`). -/
def strOfParts (parts : List String) : String :=
  if parts.isEmpty then "." else ⟨joinParts parts⟩

/-- Lexical resolution of `".."` components, as the filesystem resolves
the joined write path (a `".."` at the filesystem root stays at the
root). -/
def resolveDots (parts : List String) : List String :=
  parts.foldl (fun acc c => if c = ".." then acc.dropLast else acc ++ [c]) []

/-- The write target `project_dir / path` of `run` (`agent.py` lines
217-221) stays inside the project root: the root components are a prefix
of the fully resolved joined path. -/
def landsInsideRoot (root rel : List String) : Prop :=
  root <+: resolveDots (root ++ rel)

instance (root rel : List String) : Decidable (landsInsideRoot root rel) := by
  unfold landsInsideRoot; infer_instance

/-! ## File-block dictionary (`agent.py` lines 43-55)

`parse_files_from_response` is the regex scrape
`re.findall(r"FILE:\s*(.*?)\n...", response)` followed by a loop filling
a Python dict. The regex output is taken as input here: a list of
`(raw path, content)` matches in response order. -/

/-- Assignment `files[k] = v` on an insertion-ordered Python dict: an
existing key keeps its position and gets the new value, a new key is
appended. -/
def dictInsert (m : List (String × String)) (k v : String) : List (String × String) :=
  if m.any (fun p => p.1 == k) then
    m.map (fun p => if p.1 == k then (k, v) else p)
  else m ++ [(k, v)]

/-- `files.get(k)`: the value at the key (keys are unique in an
insertion-ordered dict, so the first occurrence is the binding). -/
def dictGet : List (String × String) → String → Option String
  | [], _ => none
  | p :: m, k => if p.1 == k then some p.2 else dictGet m k

/-- The dict-building loop of `parse_files_from_response` (`agent.py`
lines 46-54) over the regex matches: normalize each path, then
`files[str(path_obj)] = content`. -/
def parseFilesFromMatches (root : List String) (ms : List (String × String)) :
    List (String × String) :=
  ms.foldl
    (fun files m => dictInsert files (strOfParts (normalizeRespPath root m.1)) m.2) []

/-! ## The orchestrator's per-iteration control flow
(`AutonomousAgent.run`, `agent.py` lines 139-300)

One iteration of the `while True` loop, for the task returned by
`get_next_task`. The external world's behaviour during the iteration is
an `IterEnv`: the outcome of the free-text implementation query, the
JSON oracle used for timeout decomposition (as a function of the deadline
it is called with), the verifier's result, and the refinement oracle's
outcome. -/

/-- Outcome of `self.coding_tool.query(context, ..., timeout=timeout)`:
a raised `TimeoutError`, any other raised exception, or a returned value
(`none` models a `None` response). -/
inductive ImplResult where
  | timeout : ImplResult
  | exn : ImplResult
  | ok : Option String → ImplResult
  deriving DecidableEq

/-- The environment of one loop iteration. `breakdownOracle` maps the
deadline passed to `query_json` to that call's outcome, so that the
embedding records which deadline the orchestrator uses. -/
structure IterEnv where
  implResult : ImplResult
  breakdownOracle : Nat → JsonOracleResult
  execResult : Int × String
  refineOracle : JsonOracleResult
  now : String

/-- Observable outcome of one iteration: the state left in the
`TaskManager`, whether the verifier ran, whether a commit was made, and
whether the loop breaks (`no pending tasks after failure`). -/
structure IterOutcome where
  state : TMState
  ranVerifier : Bool
  committed : Bool
  stopped : Bool
  deriving DecidableEq

/-- One iteration of `AutonomousAgent.run` (`agent.py` lines 150-300) on
the selected task:

* mark the task `in_progress`;
* on `TimeoutError` from the implementation query: mark the task
  `failed`, call `query_json` with the fixed deadline `120`, and when the
  response has a `"tasks"` key append each child via `add_task`; the
  verifier, committer and refiner are skipped either way;
* on any other query failure or a `None` response: mark `failed` and
  advance;
* otherwise run the verifier, decide with `taskPassed`, mark `completed`
  (and commit) or `failed`, refine, and install the refined list via
  `set_tasks` when it differs structurally from the dump of the current
  one; after a failed verification, stop when no actionable task
  remains. -/
def runIteration (st : TMState) (task : SubTask) (env : IterEnv)
    (_timeout : Option Nat) : IterOutcome :=
  let st0 := updateTaskStatus st task.id "in_progress" env.now
  match env.implResult with
  | .timeout =>
      let st1 := updateTaskStatus st0 task.id "failed" env.now
      match env.breakdownOracle 120 with
      | .ok (some children) =>
          let st2 := children.foldl (fun s d => addTask s (subTaskOfDict d) env.now) st1
          ⟨st2, false, false, false⟩
      | _ => ⟨st1, false, false, false⟩
  | .exn => ⟨updateTaskStatus st0 task.id "failed" env.now, false, false, false⟩
  | .ok none => ⟨updateTaskStatus st0 task.id "failed" env.now, false, false, false⟩
  | .ok (some _resp) =>
      let exitCode := env.execResult.1
      let output := env.execResult.2
      let passed := taskPassed exitCode output
      let st1 := if passed then updateTaskStatus st0 task.id "completed" env.now
                 else updateTaskStatus st0 task.id "failed" env.now
      let current := st1.tasks.map dumpSubTask
      let updated := refineModel current env.refineOracle
      let st2 := if updated = current then st1 else setTasks st1 updated none
      let stopped := exitCode != 0 && (getNextTask st2).isNone
      ⟨st2, true, passed, stopped⟩

/-! ## The four-value status set (spec section 3) -/

/-- Membership in the status set `{pending, in_progress, completed,
failed}` of the specification. -/
def validStatus (s : String) : Bool :=
  s == "pending" || s == "in_progress" || s == "completed" || s == "failed"

/-- A task dictionary whose `"status"` key, when present, lies in the
four-value set. -/
def dictStatusOk (d : TaskDict) : Bool :=
  match d.status with
  | none => true
  | some s => validStatus s

/-- Every task of the state has a status in the four-value set. -/
def validState (st : TMState) : Prop :=
  ∀ t ∈ st.tasks, validStatus t.status = true

instance (st : TMState) : Decidable (validState st) := by
  unfold validState; infer_instance

/-! ## Helper lemmas -/

theorem strContains_iff_infix (n : List Char) :
    ∀ h : List Char, strContains n h = true ↔ n <:+: h := by
  intro h
  induction h with
  | nil => simp [strContains, List.isEmpty_iff, List.infix_nil]
  | cons c t ih =>
      simp [strContains, List.infix_cons_iff, Bool.or_eq_true, ih,
        List.isPrefixOf_iff_prefix]

theorem hasError_iff (out : String) :
    hasError out = true ↔ ∃ p ∈ errorPatterns, p.data <:+: out.data := by
  simp [hasError, List.any_eq_true, strContains_iff_infix]

theorem subTaskOfDict_dump (t : SubTask) : subTaskOfDict (dumpSubTask t) = t := rfl

theorem find?_eq_of_nodup_map {α : Type} {β : Type} [DecidableEq β] (f : α → β) :
    ∀ (l : List α), (l.map f).Nodup → ∀ t ∈ l,
      l.find? (fun x => f x == f t) = some t := by
  intro l
  induction l with
  | nil => intro _ t ht; cases ht
  | cons a l ih =>
      intro hnd t ht
      rw [List.map_cons, List.nodup_cons] at hnd
      rcases List.mem_cons.mp ht with rfl | htl
      · simp [List.find?]
      · have hne : (f a == f t) = false := by
          apply beq_false_of_ne
          intro he
          exact hnd.1 (he ▸ List.mem_map_of_mem f htl)
        rw [List.find?_cons, hne]
        exact ih hnd.2 t htl

theorem lookupLastDict_self (tasks : List TaskDict)
    (hnd : (tasks.map TaskDict.id).Nodup) (t : TaskDict) (ht : t ∈ tasks) :
    lookupLastDict tasks t.id = some t := by
  unfold lookupLastDict
  have hrev : (tasks.reverse.map TaskDict.id).Nodup := by
    rw [List.map_reverse]; exact List.nodup_reverse.mpr hnd
  exact find?_eq_of_nodup_map TaskDict.id tasks.reverse hrev t
    (List.mem_reverse.mpr ht)

theorem refineCarry_id (ex nt : TaskDict) : (refineCarry ex nt).id = nt.id := by
  unfold refineCarry; split <;> rfl

theorem refineCarry_status (ex nt : TaskDict) :
    (refineCarry ex nt).status = nt.status := by
  unfold refineCarry; split <;> rfl

theorem refineStep_id_and_completed (tasks : List TaskDict) (nt t : TaskDict)
    (h : refineStep tasks nt = some t) :
    t.id = nt.id ∧
      (∀ ex, lookupLastDict tasks nt.id = some ex → ex.status = some "completed" →
        t.status = some "completed") := by
  unfold refineStep at h
  split at h
  · -- lookupLastDict tasks nt.id = none
    rename_i hl
    cases h
    exact ⟨rfl, fun ex hex => by rw [hl] at hex; cases hex⟩
  · -- lookupLastDict tasks nt.id = some ex
    rename_i ex hl
    split at h
    · cases h
    · rename_i s hs
      cases h
      constructor
      · split <;> simp [refineCarry_id]
      · intro ex₂ hex₂ hst₂
        rw [hl] at hex₂
        cases hex₂
        rw [hs] at hst₂
        cases hst₂
        simp

theorem mapM_option_mem {α : Type} {β : Type} (f : α → Option β) :
    ∀ (l : List α) (out : List β), l.mapM f = some out →
      ∀ b ∈ out, ∃ a ∈ l, f a = some b := by
  intro l
  induction l with
  | nil =>
      intro out h b hb
      simp only [List.mapM_nil, pure, Option.some.injEq] at h
      subst h; cases hb
  | cons a l ih =>
      intro out h b hb
      rw [List.mapM_cons] at h
      cases hfa : f a with
      | none => rw [hfa] at h; simp [Option.bind] at h
      | some x =>
          rw [hfa] at h
          cases hml : l.mapM f with
          | none => rw [hml] at h; simp [Option.bind] at h
          | some xs =>
              rw [hml] at h
              simp only [Option.bind_eq_bind, Option.some_bind, pure,
                Option.some.injEq] at h
              subst h
              rcases List.mem_cons.mp hb with rfl | hbx
              · exact ⟨a, List.mem_cons_self a l, hfa⟩
              · obtain ⟨a', ha', hfa'⟩ := ih xs hml b hbx
                exact ⟨a', List.mem_cons_of_mem a ha', hfa'⟩

theorem dictGet_map_replace_ne (k v k₂ : String) (hk : k₂ ≠ k) :
    ∀ m : List (String × String),
      dictGet (m.map (fun p => if p.1 == k then (k, v) else p)) k₂ = dictGet m k₂ := by
  intro m
  induction m with
  | nil => rfl
  | cons p m ih =>
      rw [List.map_cons]
      by_cases hp : (p.1 == k) = true
      · have h1 : ((k : String) == k₂) = false :=
          beq_false_of_ne (fun he => hk he.symm)
        have h2 : (p.1 == k₂) = false :=
          beq_false_of_ne (fun he => hk (he.symm.trans (eq_of_beq hp)))
        rw [if_pos hp]
        show (if (k == k₂) = true then some v else _) = _
        rw [if_neg (by simp [h1]), ih]
        show _ = (if (p.1 == k₂) = true then some p.2 else dictGet m k₂)
        rw [if_neg (by simp [h2])]
      · rw [if_neg hp]
        show (if (p.1 == k₂) = true then some p.2 else _)
          = (if (p.1 == k₂) = true then some p.2 else _)
        by_cases hp₂ : (p.1 == k₂) = true
        · rw [if_pos hp₂, if_pos hp₂]
        · rw [if_neg hp₂, if_neg hp₂, ih]

theorem dictGet_map_replace_eq (k v : String) :
    ∀ m : List (String × String), m.any (fun p => p.1 == k) = true →
      dictGet (m.map (fun p => if p.1 == k then (k, v) else p)) k = some v := by
  intro m
  induction m with
  | nil => intro h; cases h
  | cons p m ih =>
      intro h
      rw [List.map_cons]
      by_cases hp : (p.1 == k) = true
      · rw [if_pos hp]
        show (if (k == k) = true then some v else _) = some v
        rw [if_pos (by simp)]
      · rw [if_neg hp]
        show (if (p.1 == k) = true then some p.2 else _) = some v
        rw [if_neg hp]
        have hfalse : (p.1 == k) = false := Bool.eq_false_iff.mpr hp
        rw [List.any_cons, hfalse, Bool.false_or] at h
        exact ih h

theorem dictGet_append (k : String) :
    ∀ m₁ m₂ : List (String × String),
      dictGet (m₁ ++ m₂) k =
        (match dictGet m₁ k with
         | some v => some v
         | none => dictGet m₂ k) := by
  intro m₁ m₂
  induction m₁ with
  | nil => rfl
  | cons p m₁ ih =>
      rw [List.cons_append]
      show (if (p.1 == k) = true then some p.2 else dictGet (m₁ ++ m₂) k) = _
      by_cases hp : (p.1 == k) = true
      · rw [if_pos hp]
        show _ = (match if (p.1 == k) = true then some p.2 else dictGet m₁ k with
          | some v => some v
          | none => dictGet m₂ k)
        rw [if_pos hp]
      · rw [if_neg hp, ih]
        show _ = (match if (p.1 == k) = true then some p.2 else dictGet m₁ k with
          | some v => some v
          | none => dictGet m₂ k)
        rw [if_neg hp]

theorem dictGet_eq_none_of_not_mem (k : String) :
    ∀ m : List (String × String), m.any (fun p => p.1 == k) = false →
      dictGet m k = none := by
  intro m
  induction m with
  | nil => intro _; rfl
  | cons p m ih =>
      intro h
      rw [List.any_cons, Bool.or_eq_false_iff] at h
      show (if (p.1 == k) = true then some p.2 else dictGet m k) = none
      rw [if_neg (by simp [h.1]), ih h.2]

theorem dictGet_insert (m : List (String × String)) (k v k₂ : String) :
    dictGet (dictInsert m k v) k₂ = if k₂ = k then some v else dictGet m k₂ := by
  unfold dictInsert
  by_cases hmem : (m.any (fun p => p.1 == k)) = true
  · rw [if_pos hmem]
    by_cases hk : k₂ = k
    · subst hk
      rw [if_pos rfl, dictGet_map_replace_eq k₂ v m hmem]
    · rw [if_neg hk, dictGet_map_replace_ne k v k₂ hk m]
  · rw [if_neg hmem, dictGet_append]
    by_cases hk : k₂ = k
    · subst hk
      rw [dictGet_eq_none_of_not_mem k₂ m (Bool.eq_false_iff.mpr hmem), if_pos rfl]
      show (if (k₂ == k₂) = true then some v else none) = some v
      rw [if_pos (by simp)]
    · rw [if_neg hk]
      have hone : dictGet [((k : String), v)] k₂ = none := by
        show (if (k == k₂) = true then some v else none) = none
        rw [if_neg (by simp [beq_false_of_ne (fun he : k = k₂ => hk he.symm)])]
      rw [hone]
      cases dictGet m k₂ <;> rfl

theorem parse_files_foldl_lookup (root : List String) (k : String) :
    ∀ (ms acc : List (String × String)),
      dictGet (ms.foldl
          (fun files m => dictInsert files (strOfParts (normalizeRespPath root m.1)) m.2)
          acc) k
        = (match (ms.map (fun m => (strOfParts (normalizeRespPath root m.1), m.2))).reverse.find?
            (fun p => p.1 == k) with
          | some p => some p.2
          | none => dictGet acc k) := by
  intro ms
  induction ms with
  | nil => intro acc; rfl
  | cons m ms ih =>
      intro acc
      rw [List.foldl_cons, ih, List.map_cons, List.reverse_cons, List.find?_append]
      cases hfind : (ms.map (fun m => (strOfParts (normalizeRespPath root m.1), m.2))).reverse.find?
          (fun p => p.1 == k) with
      | some p => rfl
      | none =>
          rw [dictGet_insert]
          by_cases hk : k = strOfParts (normalizeRespPath root m.1)
          · subst hk
            simp [List.find?]
          · rw [if_neg hk]
            have hone : ([(strOfParts (normalizeRespPath root m.1), m.2)].find?
                (fun p => p.1 == k)) = none := by
              simp [List.find?, beq_false_of_ne (fun he => hk he.symm)]
            rw [hone]
            rfl

theorem foldl_resolve_no_dots :
    ∀ (l acc : List String), ".." ∉ l →
      l.foldl (fun acc c => if c = ".." then acc.dropLast else acc ++ [c]) acc
        = acc ++ l := by
  intro l
  induction l with
  | nil => intro acc _; simp
  | cons c l ih =>
      intro acc h
      rw [List.foldl_cons]
      have hc : c ≠ ".." := fun he => h (he ▸ List.mem_cons_self c l)
      rw [if_neg hc, ih (acc ++ [c]) (fun hm => h (List.mem_cons_of_mem c hm))]
      simp

theorem resolveDots_append_no_dots (root rel : List String) (hrel : ".." ∉ rel) :
    resolveDots (root ++ rel) = resolveDots root ++ rel := by
  unfold resolveDots
  rw [List.foldl_append, foldl_resolve_no_dots rel (List.foldl _ [] root) hrel]

theorem lands_inside_of_no_dots (root rel : List String) (hroot : ".." ∉ root)
    (hrel : ".." ∉ rel) : landsInsideRoot root rel := by
  unfold landsInsideRoot
  rw [resolveDots_append_no_dots root rel hrel]
  have hid : resolveDots root = root := by
    unfold resolveDots
    rw [foldl_resolve_no_dots root [] hroot]
    rfl
  rw [hid]
  exact List.prefix_append root rel

theorem updateFirst_map_id (p : SubTask → Bool) (f : SubTask → SubTask)
    (hf : ∀ t, (f t).id = t.id) :
    ∀ l : List SubTask, (updateFirst p f l).map SubTask.id = l.map SubTask.id := by
  intro l
  induction l with
  | nil => rfl
  | cons t l ih =>
      unfold updateFirst
      by_cases hp : p t = true
      · rw [if_pos hp, List.map_cons, List.map_cons, hf]
      · rw [if_neg hp, List.map_cons, List.map_cons, ih]

theorem updateTaskStatus_ids (st : TMState) (i s now : String) :
    (updateTaskStatus st i s now).tasks.map SubTask.id = st.tasks.map SubTask.id :=
  updateFirst_map_id (fun t => t.id == i)
    (fun t => { t with status := s, updated_time := some now }) (fun _ => rfl) st.tasks

theorem updateTaskStatus_req (st : TMState) (i s now : String) :
    (updateTaskStatus st i s now).requirement = st.requirement := rfl

theorem find?_updateFirst_status (i s now : String) :
    ∀ l : List SubTask, i ∈ l.map SubTask.id →
      ((updateFirst (fun t => t.id == i)
          (fun t => { t with status := s, updated_time := some now }) l).find?
        (fun t => t.id == i)).map SubTask.status = some s := by
  intro l
  induction l with
  | nil => intro h; cases h
  | cons t l ih =>
      intro h
      unfold updateFirst
      by_cases hp : (t.id == i) = true
      · rw [if_pos hp]
        rw [List.find?_cons_of_pos]
        · rfl
        · exact hp
      · rw [if_neg hp]
        rw [List.find?_cons_of_neg]
        · apply ih
          rcases List.mem_cons.mp h with he | hm
          · exact absurd (beq_iff_eq.mpr he.symm) hp
          · exact hm
        · simp only [hp]
          exact Bool.false_ne_true ∘ id

theorem statusOf_updateTaskStatus_self (st : TMState) (i s now : String)
    (h : i ∈ st.tasks.map SubTask.id) :
    statusOf (updateTaskStatus st i s now) i = some s :=
  find?_updateFirst_status i s now st.tasks h

theorem foldl_addTask_tasks (now : String) :
    ∀ (children : List TaskDict) (st : TMState),
      (children.foldl (fun s d => addTask s (subTaskOfDict d) now) st).tasks
        = st.tasks ++ children.map (fun d => stampTime (subTaskOfDict d) now) := by
  intro children
  induction children with
  | nil => intro st; simp
  | cons c cs ih =>
      intro st
      rw [List.foldl_cons, ih (addTask st (subTaskOfDict c) now), List.map_cons]
      show (st.tasks ++ [stampTime (subTaskOfDict c) now]) ++ _ = _
      rw [List.append_assoc]
      rfl

theorem foldl_addTask_req (now : String) :
    ∀ (children : List TaskDict) (st : TMState),
      (children.foldl (fun s d => addTask s (subTaskOfDict d) now) st).requirement
        = st.requirement := by
  intro children
  induction children with
  | nil => intro st; rfl
  | cons c cs ih =>
      intro st
      rw [List.foldl_cons, ih (addTask st (subTaskOfDict c) now)]
      rfl

theorem statusOf_append_left (i : String) (l l₂ : List SubTask)
    (h : i ∈ l.map SubTask.id) :
    ((l ++ l₂).find? (fun t => t.id == i)).map SubTask.status
      = (l.find? (fun t => t.id == i)).map SubTask.status := by
  obtain ⟨t, ht, hid⟩ := List.mem_map.mp h
  have hsome : (l.find? (fun t => t.id == i)).isSome := by
    rw [List.find?_isSome]
    exact ⟨t, ht, beq_iff_eq.mpr hid⟩
  rw [List.find?_append]
  cases hf : l.find? (fun t => t.id == i) with
  | none => rw [hf] at hsome; cases hsome
  | some x => rfl

/-- The timeout branch of `runIteration` with a successful decomposition,
shared shape: the task is marked `in_progress` then `failed`, the children
are appended at the end through `add_task`, and the verifier, committer
and refinement are skipped. -/
theorem runIteration_timeout_children (st : TMState) (task : SubTask)
    (env : IterEnv) (tm : Option Nat) (children : List TaskDict)
    (h : env.implResult = ImplResult.timeout)
    (hb : env.breakdownOracle 120 = Except.ok (some children)) :
    (runIteration st task env tm).state.tasks
        = (updateTaskStatus (updateTaskStatus st task.id "in_progress" env.now)
            task.id "failed" env.now).tasks
          ++ children.map (fun d => stampTime (subTaskOfDict d) env.now) ∧
      (runIteration st task env tm).ranVerifier = false ∧
      (runIteration st task env tm).committed = false ∧
      (runIteration st task env tm).stopped = false := by
  refine ⟨?_, ?_, ?_, ?_⟩ <;> simp only [runIteration, h, hb]
  exact foldl_addTask_tasks env.now children _

/-- The timeout branch of `runIteration` with a failed decomposition
(raised exception, timeout of the 120-second call, or a response without
a `"tasks"` key): the state is exactly the twice-marked one. -/
theorem runIteration_timeout_nochildren (st : TMState) (task : SubTask)
    (env : IterEnv) (tm : Option Nat)
    (h : env.implResult = ImplResult.timeout)
    (hb : env.breakdownOracle 120 = Except.error ()
      ∨ env.breakdownOracle 120 = Except.ok none) :
    runIteration st task env tm
      = ⟨updateTaskStatus (updateTaskStatus st task.id "in_progress" env.now)
          task.id "failed" env.now, false, false, false⟩ := by
  rcases hb with hb | hb <;> simp only [runIteration, h, hb]

theorem stampTime_status (t : SubTask) (now : String) :
    (stampTime t now).status = t.status := by
  unfold stampTime; split <;> rfl

theorem setTasksPatch_status (old : List SubTask) (d : TaskDict) :
    (setTasksPatch old d).status = d.status := by
  unfold setTasksPatch
  cases lookupLast old d.id <;> dsimp only <;> split <;> rfl

theorem subTaskOfDict_valid (d : TaskDict) (hd : dictStatusOk d = true) :
    validStatus (subTaskOfDict d).status = true := by
  unfold dictStatusOk at hd
  show validStatus (d.status.getD "pending") = true
  cases hs : d.status with
  | none => decide
  | some s => rw [hs] at hd; exact hd

theorem updateFirst_valid (p : SubTask → Bool) (s now : String)
    (hs : validStatus s = true) :
    ∀ l : List SubTask, (∀ t ∈ l, validStatus t.status = true) →
      ∀ t ∈ updateFirst p (fun t => { t with status := s, updated_time := some now }) l,
        validStatus t.status = true := by
  intro l
  induction l with
  | nil => intro _ t ht; cases ht
  | cons a l ih =>
      intro hl t ht
      unfold updateFirst at ht
      by_cases hp : p a = true
      · rw [if_pos hp] at ht
        rcases List.mem_cons.mp ht with rfl | hm
        · exact hs
        · exact hl t (List.mem_cons_of_mem a hm)
      · rw [if_neg hp] at ht
        rcases List.mem_cons.mp ht with rfl | hm
        · exact hl _ (List.mem_cons_self _ _)
        · exact ih (fun x hx => hl x (List.mem_cons_of_mem a hx)) t hm

theorem validState_updateTaskStatus (st : TMState) (i s now : String)
    (hst : validState st) (hs : validStatus s = true) :
    validState (updateTaskStatus st i s now) :=
  updateFirst_valid (fun t => t.id == i) s now hs st.tasks hst

theorem validState_setTasks (st : TMState) (ts : List TaskDict) (req : Option String)
    (hts : ∀ d ∈ ts, dictStatusOk d = true) :
    validState (setTasks st ts req) := by
  intro t ht
  obtain ⟨d, hd, rfl⟩ := List.mem_map.mp ht
  apply subTaskOfDict_valid
  unfold dictStatusOk
  rw [setTasksPatch_status]
  have hok := hts d hd
  unfold dictStatusOk at hok
  exact hok

theorem refineStep_status_cases (tasks : List TaskDict) (nt t : TaskDict)
    (h : refineStep tasks nt = some t) :
    t.status = nt.status ∨ t.status = some "completed" := by
  unfold refineStep at h
  split at h
  · cases h; exact Or.inl rfl
  · split at h
    · cases h
    · rename_i ex hl s hs
      cases h
      by_cases hc : s = "completed"
      · rw [if_pos hc]; exact Or.inr rfl
      · rw [if_neg hc, refineCarry_status]; exact Or.inl rfl

theorem refineModel_statusOk (tasks : List TaskDict) (oracle : JsonOracleResult)
    (htasks : ∀ d ∈ tasks, dictStatusOk d = true)
    (hor : ∀ props, oracle = Except.ok (some props) →
      ∀ d ∈ props, dictStatusOk d = true) :
    ∀ d ∈ refineModel tasks oracle, dictStatusOk d = true := by
  cases oracle with
  | error e => exact htasks
  | ok resp =>
      have hnts : ∀ d ∈ resp.getD tasks, dictStatusOk d = true := by
        cases resp with
        | none => exact htasks
        | some props => exact hor props rfl
      cases hm : (resp.getD tasks).mapM (refineStep tasks) with
      | none =>
          have heq : refineModel tasks (Except.ok resp) = tasks := by
            show (match (resp.getD tasks).mapM (refineStep tasks) with
              | none => tasks
              | some out => out) = tasks
            rw [hm]
          rw [heq]
          exact htasks
      | some out =>
          have heq : refineModel tasks (Except.ok resp) = out := by
            show (match (resp.getD tasks).mapM (refineStep tasks) with
              | none => tasks
              | some o => o) = out
            rw [hm]
          rw [heq]
          intro t ht
          obtain ⟨nt, hnt, hstep⟩ := mapM_option_mem (refineStep tasks) _ out hm t ht
          rcases refineStep_status_cases tasks nt t hstep with hts | hts
          · unfold dictStatusOk
            rw [hts]
            have hok := hnts nt hnt
            unfold dictStatusOk at hok
            exact hok
          · unfold dictStatusOk
            rw [hts]
            decide

theorem validState_refine_install (st1 : TMState) (oracle : JsonOracleResult)
    (h1 : validState st1)
    (hor : ∀ props, oracle = Except.ok (some props) →
      ∀ d ∈ props, dictStatusOk d = true) :
    validState
      (if refineModel (st1.tasks.map dumpSubTask) oracle = st1.tasks.map dumpSubTask
       then st1
       else setTasks st1 (refineModel (st1.tasks.map dumpSubTask) oracle) none) := by
  split
  · exact h1
  · apply validState_setTasks
    apply refineModel_statusOk
    · intro d hd
      obtain ⟨t, ht, rfl⟩ := List.mem_map.mp hd
      show (match (dumpSubTask t).status with
        | none => true
        | some s => validStatus s) = true
      exact h1 t ht
    · exact hor

/-! ## Claim theorems -/

/-- C10: when several FILE blocks of one response name the same path
after normalization, the dictionary built by `parse_files_from_response`
binds that path to the content of the LAST such block (later duplicates
silently overwrite earlier ones): the lookup equals the first match in
the reversed normalized match list. -/
theorem parse_files_last_duplicate_wins :
    ∀ (root : List String) (ms : List (String × String)) (k : String),
      dictGet (parseFilesFromMatches root ms) k
        = ((ms.map (fun m => (strOfParts (normalizeRespPath root m.1), m.2))).reverse.find?
            (fun p => p.1 == k)).map Prod.snd := by
  intro root ms k
  unfold parseFilesFromMatches
  rw [parse_files_foldl_lookup root k ms []]
  cases (ms.map (fun m => (strOfParts (normalizeRespPath root m.1), m.2))).reverse.find?
      (fun p => p.1 == k) with
  | none => rfl
  | some p => rfl

/-- C1 (counterexample): `set_tasks` itself does not make `completed`
sticky. Starting from a state whose only task `1` is `completed`, a bulk
replacement whose incoming dictionary for id `1` carries status
`pending` leaves task `1` with status `pending`. -/
theorem set_tasks_reverts_completed_counterexample :
    statusOf (⟨[⟨"1", "t", "d", "c", "completed", none⟩], "", none⟩ : TMState) "1"
        = some "completed" ∧
      statusOf
          (setTasks (⟨[⟨"1", "t", "d", "c", "completed", none⟩], "", none⟩ : TMState)
            [⟨"1", "t", "d", "c", some "pending", some none⟩] none) "1"
        ≠ some "completed" := by
  constructor
  · rfl
  · decide

/-- C1 (amended): the sticky-completion invariant is enforced by
`TaskRefiner.refine`, not by `set_tasks`. Provided the input task list
has unique ids, every task in the output of `refine` whose id matches an
input task with status `completed` has status `completed` — so a
completed task is never reverted by a task-list replacement installed
through the refinement path, whatever the oracle proposes. -/
theorem refine_preserves_completed (tasks : List TaskDict)
    (oracle : JsonOracleResult) (hnd : (tasks.map TaskDict.id).Nodup) :
    ∀ t ∈ refineModel tasks oracle, ∀ ex,
      lookupLastDict tasks t.id = some ex → ex.status = some "completed" →
      t.status = some "completed" := by
  have fallback : ∀ t ∈ tasks, ∀ ex,
      lookupLastDict tasks t.id = some ex → ex.status = some "completed" →
      t.status = some "completed" := by
    intro t ht ex hex hst
    rw [lookupLastDict_self tasks hnd t ht] at hex
    cases hex
    exact hst
  cases oracle with
  | error e => exact fallback
  | ok resp =>
      show ∀ t ∈ (match (resp.getD tasks).mapM (refineStep tasks) with
        | none => tasks
        | some out => out), _
      cases hm : (resp.getD tasks).mapM (refineStep tasks) with
      | none => exact fallback
      | some out =>
          intro t ht ex hex hst
          obtain ⟨nt, _, hstep⟩ := mapM_option_mem (refineStep tasks)
            (resp.getD tasks) out hm t ht
          obtain ⟨hid, hforce⟩ := refineStep_id_and_completed tasks nt t hstep
          rw [hid] at hex
          exact hforce ex hex hst

/-- Witness for C1: refining a completed task `1` against an oracle
proposal that tries to set it back to `pending` yields status
`completed`. -/
theorem refine_preserves_completed_witness :
    (⟨"1", "t2", "d2", "c2", some "completed", some (some "T1")⟩ : TaskDict).status
      = some "completed" :=
  refine_preserves_completed
    [⟨"1", "t", "d", "c", some "completed", some (some "T1")⟩]
    (Except.ok (some [⟨"1", "t2", "d2", "c2", some "pending", none⟩]))
    (by decide)
    ⟨"1", "t2", "d2", "c2", some "completed", some (some "T1")⟩
    (by decide)
    ⟨"1", "t", "d", "c", some "completed", some (some "T1")⟩
    (by decide) (by decide)

/-- C2 (counterexample): the claimed guarantee that no write ever targets
a path outside the project root fails for relative paths that contain a
`..` component: a FILE block naming `../evil.py` is kept verbatim by
`parse_files_from_response`, and the write target
`project_dir / "../evil.py"` resolves outside the project root. -/
theorem parse_files_escapes_root_counterexample :
    parseFilesFromMatches ["home", "proj"] [("../evil.py", "x")]
        = [("../evil.py", "x")] ∧
      ¬ landsInsideRoot ["home", "proj"]
          (normalizeRespPath ["home", "proj"] "../evil.py") := by
  constructor
  · decide
  · decide

/-- C2 (amended): the absolute-path handling is as claimed — an absolute
path lexically under the root is rewritten to its remainder relative to
the root, any other absolute path degrades to its base name, and a
relative path is kept as parsed — and every resulting path free of `..`
components lands inside the project root (given a `..`-free root); a
path whose normalized form retains a `..` component may escape the
root. -/
theorem parse_files_path_normalization (root : List String) (raw : String)
    (hroot : ".." ∉ root) :
    (pathIsAbs (pyTrim raw) = true →
      root.isPrefixOf (pathParts (pyTrim raw)) = true →
      normalizeRespPath root raw = (pathParts (pyTrim raw)).drop root.length) ∧
    (pathIsAbs (pyTrim raw) = true →
      root.isPrefixOf (pathParts (pyTrim raw)) = false →
      normalizeRespPath root raw = [pathName (pathParts (pyTrim raw))]) ∧
    (pathIsAbs (pyTrim raw) = false →
      normalizeRespPath root raw = pathParts (pyTrim raw)) ∧
    (".." ∉ normalizeRespPath root raw →
      landsInsideRoot root (normalizeRespPath root raw)) := by
  refine ⟨?_, ?_, ?_, ?_⟩
  · intro habs hpre
    unfold normalizeRespPath
    rw [if_pos habs, if_pos hpre]
  · intro habs hpre
    unfold normalizeRespPath
    rw [if_pos habs, if_neg (by simp [hpre])]
  · intro habs
    unfold normalizeRespPath
    rw [if_neg (by simp [habs])]
  · intro hnd
    exact lands_inside_of_no_dots root (normalizeRespPath root raw) hroot hnd

/-- Witness for C2: under root `/home/proj`, the in-root absolute path
`/home/proj/src/a.py` is rewritten to `src/a.py`, which lands inside the
root. -/
theorem parse_files_path_normalization_witness :
    normalizeRespPath ["home", "proj"] "/home/proj/src/a.py" = ["src", "a.py"] ∧
      landsInsideRoot ["home", "proj"]
        (normalizeRespPath ["home", "proj"] "/home/proj/src/a.py") := by
  have h := parse_files_path_normalization ["home", "proj"] "/home/proj/src/a.py"
    (by decide)
  exact ⟨(h.1 (by decide) (by decide)).trans (by decide), h.2.2.2 (by decide)⟩

/-- C3: a verifier result is classified as passed exactly when the exit
code is zero and the captured output contains none of the nine fixed
error-marker substrings; exit code 0 with output `Error: nothing to
commit` is classified as failed, and a nonzero exit code is a failure
regardless of markers. -/
theorem pass_policy_characterization :
    (∀ (ec : Int) (out : String),
        taskPassed ec out = true ↔
          (ec = 0 ∧ ∀ p ∈ errorPatterns, ¬ p.data <:+: out.data)) ∧
    taskPassed 0 "Error: nothing to commit" = false ∧
    (∀ (ec : Int) (out : String), ec ≠ 0 → taskPassed ec out = false) := by
  refine ⟨?_, by decide, ?_⟩
  · intro ec out
    have h := hasError_iff out
    constructor
    · intro hp
      simp only [taskPassed, Bool.and_eq_true, beq_iff_eq, Bool.not_eq_true'] at hp
      refine ⟨hp.1, ?_⟩
      intro p hp' hinf
      have : hasError out = true := (hasError_iff out).mpr ⟨p, hp', hinf⟩
      rw [this] at hp; exact absurd hp.2 (by decide)
    · rintro ⟨h0, hnone⟩
      have hne : hasError out = false := by
        rcases hh : hasError out with _ | _
        · rfl
        · exfalso
          obtain ⟨p, hp', hinf⟩ := (hasError_iff out).mp hh
          exact hnone p hp' hinf
      simp [taskPassed, h0, hne]
  · intro ec out hne
    have : (ec == 0) = false := by simpa using hne
    simp [taskPassed, this]

/-- Witness for C3: exit code 3 with benign output is classified failed. -/
theorem pass_policy_characterization_witness :
    taskPassed 3 "ok" = false :=
  pass_policy_characterization.2.2 3 "ok" (by decide)

/-- C6: when the single JSON-constrained oracle call inside `refine`
fails (raised exception or unparseable JSON, both surfacing as a raised
exception at the call site), the refinement is a no-op: the returned task
list is the input `tasks` itself. The refiner holds no reference to the
`TaskManager`, so no stored state can change. -/
theorem refine_noop_on_oracle_failure :
    ∀ (tasks : List TaskDict), refineModel tasks (Except.error ()) = tasks :=
  fun _ => rfl

/-- C7 (counterexample): no operation validates statuses. `set_tasks`
applied to a dictionary with status `bogus` stores a task whose status
lies outside the four-value set, so such a state is reachable whenever
the planning or refinement oracle proposes an invalid status. -/
theorem invalid_status_stored_counterexample :
    ((setTasks (⟨[], "", none⟩ : TMState)
        [⟨"1", "t", "d", "c", some "bogus", some none⟩] none).tasks.map
      SubTask.status = ["bogus"]) ∧ validStatus "bogus" = false := by
  exact ⟨by decide, by decide⟩

/-- C7 (amended): the four-value status invariant is preserved by the
transitions the orchestrator performs itself — `SubTask` defaults a
missing status to `pending` and every `update_task_status` call of the
loop writes `in_progress`, `completed` or `failed` — so one full loop
iteration keeps all statuses inside the set PROVIDED every oracle-supplied
task dictionary (decomposition children, refinement proposal) carries a
status inside the set or omits it; the code itself never validates
oracle-supplied statuses. -/
theorem run_iteration_preserves_valid_statuses (st : TMState) (task : SubTask)
    (env : IterEnv) (tm : Option Nat)
    (hst : validState st)
    (hbd : ∀ children, env.breakdownOracle 120 = Except.ok (some children) →
      ∀ d ∈ children, dictStatusOk d = true)
    (hrf : ∀ props, env.refineOracle = Except.ok (some props) →
      ∀ d ∈ props, dictStatusOk d = true) :
    validState (runIteration st task env tm).state := by
  have h0 : validState (updateTaskStatus st task.id "in_progress" env.now) :=
    validState_updateTaskStatus _ _ _ _ hst (by decide)
  have hfail : validState (updateTaskStatus
      (updateTaskStatus st task.id "in_progress" env.now) task.id "failed" env.now) :=
    validState_updateTaskStatus _ _ _ _ h0 (by decide)
  cases hi : env.implResult with
  | timeout =>
      rcases hb : env.breakdownOracle 120 with e | o
      · rw [runIteration_timeout_nochildren st task env tm hi (Or.inl (by rw [hb]))]
        exact hfail
      · cases o with
        | none =>
            rw [runIteration_timeout_nochildren st task env tm hi (Or.inr (by rw [hb]))]
            exact hfail
        | some children =>
            intro t ht
            rw [(runIteration_timeout_children st task env tm children hi hb).1] at ht
            rcases List.mem_append.mp ht with hm | hm
            · exact hfail t hm
            · obtain ⟨d, hd, rfl⟩ := List.mem_map.mp hm
              rw [stampTime_status]
              exact subTaskOfDict_valid d (hbd children hb d hd)
  | exn =>
      simp only [runIteration, hi]
      exact hfail
  | ok r =>
      cases r with
      | none =>
          simp only [runIteration, hi]
          exact hfail
      | some resp =>
          simp only [runIteration, hi]
          apply validState_refine_install _ env.refineOracle _ hrf
          split
          · exact validState_updateTaskStatus _ _ _ _ h0 (by decide)
          · exact validState_updateTaskStatus _ _ _ _ h0 (by decide)

/-- Witness for C7: an iteration whose implementation query raises a
non-timeout exception keeps all statuses inside the four-value set. -/
theorem run_iteration_preserves_valid_statuses_witness :
    validState (runIteration
        (⟨[⟨"1", "t", "d", "c", "pending", none⟩], "", none⟩ : TMState)
        ⟨"1", "t", "d", "c", "pending", none⟩
        ⟨ImplResult.exn, fun _ => Except.error (), (0, ""), Except.error (), "T"⟩
        none).state :=
  run_iteration_preserves_valid_statuses
    (⟨[⟨"1", "t", "d", "c", "pending", none⟩], "", none⟩ : TMState)
    ⟨"1", "t", "d", "c", "pending", none⟩
    ⟨ImplResult.exn, fun _ => Except.error (), (0, ""), Except.error (), "T"⟩
    none (by decide) (fun children hc => nomatch hc) (fun props hc => nomatch hc)

/-- C8: `set_tasks` carries over the existing `updated_time` for every
incoming task that matches an existing id and omits the key (a present
key, even `null`, is kept verbatim); the stored requirement changes only
when a non-`None`, non-empty value is supplied; and the full new state is
persisted immediately. -/
theorem set_tasks_spec :
    ∀ (st : TMState) (ts : List TaskDict) (req : Option String),
      (∀ (i : Nat) (d : TaskDict) (ex : SubTask), ts[i]? = some d →
        d.updated_time = none →
        lookupLast st.tasks d.id = some ex →
        ((setTasks st ts req).tasks[i]?).map SubTask.updated_time
          = some ex.updated_time) ∧
      (∀ (i : Nat) (d : TaskDict) (v : Option String), ts[i]? = some d →
        d.updated_time = some v →
        ((setTasks st ts req).tasks[i]?).map SubTask.updated_time = some v) ∧
      (req = none → (setTasks st ts req).requirement = st.requirement) ∧
      (req = some "" → (setTasks st ts req).requirement = st.requirement) ∧
      (∀ r, req = some r → r ≠ "" → (setTasks st ts req).requirement = r) ∧
      (setTasks st ts req).saved
        = some (saveDocOf (setTasks st ts req).tasks (setTasks st ts req).requirement) := by
  intro st ts req
  have hmap : (setTasks st ts req).tasks
      = ts.map (fun d => subTaskOfDict (setTasksPatch st.tasks d)) := rfl
  refine ⟨?_, ?_, ?_, ?_, ?_, rfl⟩
  · intro i d ex h1 h2 h3
    rw [hmap, List.getElem?_map, h1]
    show some (subTaskOfDict (setTasksPatch st.tasks d)).updated_time = _
    unfold setTasksPatch
    rw [h3, h2]
    simp [subTaskOfDict]
  · intro i d v h1 h2
    rw [hmap, List.getElem?_map, h1]
    show some (subTaskOfDict (setTasksPatch st.tasks d)).updated_time = _
    unfold setTasksPatch
    have hne : ¬ d.updated_time = none := by rw [h2]; intro hc; cases hc
    cases h3 : lookupLast st.tasks d.id <;>
      rw [if_neg hne] <;> simp [subTaskOfDict, h2]
  · intro h; rw [h]; rfl
  · intro h; rw [h]; show (if ("" : String) = "" then st.requirement else "") = _
    rw [if_pos rfl]
  · intro r h hr
    rw [h]
    show (if r = "" then st.requirement else r) = r
    rw [if_neg hr]

/-- Witness for C8: replacing the single completed task `1` (stamped
`T0`) by a dictionary omitting `updated_time` carries `T0` over. -/
theorem set_tasks_spec_witness :
    (((setTasks (⟨[⟨"1", "t", "d", "c", "completed", some "T0"⟩], "r", none⟩ : TMState)
        [⟨"1", "t2", "d2", "c2", some "pending", none⟩] none).tasks[0]?).map
      SubTask.updated_time) = some (some "T0") :=
  (set_tasks_spec (⟨[⟨"1", "t", "d", "c", "completed", some "T0"⟩], "r", none⟩ : TMState)
      [⟨"1", "t2", "d2", "c2", some "pending", none⟩] none).1 0
    ⟨"1", "t2", "d2", "c2", some "pending", none⟩
    ⟨"1", "t", "d", "c", "completed", some "T0"⟩
    (by decide) (by decide) (by decide)

/-- C4: on a timeout of the free-text implementation query the
orchestrator marks the task `failed` first, issues one JSON-constrained
decomposition query at its own fixed deadline (120 seconds, independent
of the per-task deadline), appends every returned child task at the end
of the task list, and advances without running the verifier or the
committer; when the decomposition call fails (or returns no `"tasks"`
key) the task is left `failed` and the loop advances. -/
theorem timeout_decomposition_flow (st : TMState) (task : SubTask)
    (env : IterEnv) (tm : Option Nat)
    (h : env.implResult = ImplResult.timeout) :
    ((runIteration st task env tm).ranVerifier = false ∧
     (runIteration st task env tm).committed = false ∧
     (runIteration st task env tm).stopped = false) ∧
    (task.id ∈ st.tasks.map SubTask.id →
      statusOf (runIteration st task env tm).state task.id = some "failed") ∧
    (∀ children, env.breakdownOracle 120 = Except.ok (some children) →
      (runIteration st task env tm).state.tasks
        = (updateTaskStatus (updateTaskStatus st task.id "in_progress" env.now)
            task.id "failed" env.now).tasks
          ++ children.map (fun d => stampTime (subTaskOfDict d) env.now)) ∧
    ((env.breakdownOracle 120 = Except.error ()
        ∨ env.breakdownOracle 120 = Except.ok none) →
      (runIteration st task env tm).state
        = updateTaskStatus (updateTaskStatus st task.id "in_progress" env.now)
            task.id "failed" env.now) ∧
    (∀ (env₂ : IterEnv) (tm₂ : Option Nat),
      env₂.implResult = ImplResult.timeout → env₂.now = env.now →
      env₂.breakdownOracle 120 = env.breakdownOracle 120 →
      runIteration st task env₂ tm₂ = runIteration st task env tm) := by
  have hmarked : task.id ∈ st.tasks.map SubTask.id →
      statusOf (updateTaskStatus (updateTaskStatus st task.id "in_progress" env.now)
        task.id "failed" env.now) task.id = some "failed" := by
    intro hmem
    apply statusOf_updateTaskStatus_self
    rw [updateTaskStatus_ids]
    exact hmem
  refine ⟨?_, ?_, ?_, ?_, ?_⟩
  · rcases hb : env.breakdownOracle 120 with e | o
    · rw [runIteration_timeout_nochildren st task env tm h (Or.inl (by rw [hb]))]
      exact ⟨rfl, rfl, rfl⟩
    · cases o with
      | none =>
          rw [runIteration_timeout_nochildren st task env tm h (Or.inr (by rw [hb]))]
          exact ⟨rfl, rfl, rfl⟩
      | some children =>
          obtain ⟨_, h2, h3, h4⟩ :=
            runIteration_timeout_children st task env tm children h hb
          exact ⟨h2, h3, h4⟩
  · intro hmem
    rcases hb : env.breakdownOracle 120 with e | o
    · rw [runIteration_timeout_nochildren st task env tm h (Or.inl (by rw [hb]))]
      exact hmarked hmem
    · cases o with
      | none =>
          rw [runIteration_timeout_nochildren st task env tm h (Or.inr (by rw [hb]))]
          exact hmarked hmem
      | some children =>
          obtain ⟨h1, _, _, _⟩ :=
            runIteration_timeout_children st task env tm children h hb
          show ((runIteration st task env tm).state.tasks.find?
            (fun t => t.id == task.id)).map SubTask.status = some "failed"
          rw [h1, statusOf_append_left task.id _ _
            (by rw [updateTaskStatus_ids, updateTaskStatus_ids]; exact hmem)]
          exact hmarked hmem
  · intro children hb
    exact (runIteration_timeout_children st task env tm children h hb).1
  · intro hb
    rw [runIteration_timeout_nochildren st task env tm h hb]
  · intro env₂ tm₂ h₂ hnow hbo
    simp only [runIteration, h, h₂, hnow, hbo]

/-- Witness for C4: a concrete timed-out iteration skips the verifier. -/
theorem timeout_decomposition_flow_witness :
    (runIteration (⟨[⟨"1", "t", "d", "c", "pending", none⟩], "", none⟩ : TMState)
        ⟨"1", "t", "d", "c", "pending", none⟩
        ⟨ImplResult.timeout, fun _ => Except.error (), (0, ""), Except.error (), "T"⟩
        (some 5)).ranVerifier = false :=
  (timeout_decomposition_flow
      (⟨[⟨"1", "t", "d", "c", "pending", none⟩], "", none⟩ : TMState)
      ⟨"1", "t", "d", "c", "pending", none⟩
      ⟨ImplResult.timeout, fun _ => Except.error (), (0, ""), Except.error (), "T"⟩
      (some 5) rfl).1.1

/-- C5 (counterexample): nothing validates the ids proposed by the
decomposition oracle. A breakdown response that reuses the existing id
`1` is appended as is: the resulting id sequence is `["1", "1"]`, ids are
no longer unique, and the child id does not start with `1-`. -/
theorem timeout_children_ids_counterexample :
    ((runIteration (⟨[⟨"1", "t", "d", "c", "pending", none⟩], "", none⟩ : TMState)
        ⟨"1", "t", "d", "c", "pending", none⟩
        ⟨ImplResult.timeout,
          fun _ => Except.ok (some [⟨"1", "x", "y", "z", some "pending", none⟩]),
          (0, ""), Except.error (), "T"⟩
        none).state.tasks.map SubTask.id = ["1", "1"]) ∧
      ¬ ((runIteration (⟨[⟨"1", "t", "d", "c", "pending", none⟩], "", none⟩ : TMState)
        ⟨"1", "t", "d", "c", "pending", none⟩
        ⟨ImplResult.timeout,
          fun _ => Except.ok (some [⟨"1", "x", "y", "z", some "pending", none⟩]),
          (0, ""), Except.error (), "T"⟩
        none).state.tasks.map SubTask.id).Nodup ∧
      ¬ ("1-".data <+: "1".data) := by
  exact ⟨by decide, by decide, by decide⟩

/-- C5 (amended): the decomposition prompt requests child ids of the form
`P-suffix`, but the code does not enforce it; provided the oracle's
children do carry ids prefixed by the parent id and a dash, pairwise
distinct and distinct from every existing id, the appended store keeps
task ids unique and the id sequence is the old one followed by the child
ids. -/
theorem timeout_children_ids_unique (st : TMState) (task : SubTask)
    (env : IterEnv) (tm : Option Nat) (children : List TaskDict)
    (h : env.implResult = ImplResult.timeout)
    (hb : env.breakdownOracle 120 = Except.ok (some children))
    (hnd : (st.tasks.map SubTask.id).Nodup)
    (hpre : ∀ d ∈ children, (task.id ++ "-").data <+: d.id.data)
    (hcnd : (children.map TaskDict.id).Nodup)
    (hfresh : ∀ d ∈ children, d.id ∉ st.tasks.map SubTask.id) :
    (runIteration st task env tm).state.tasks.map SubTask.id
        = st.tasks.map SubTask.id ++ children.map TaskDict.id ∧
      ((runIteration st task env tm).state.tasks.map SubTask.id).Nodup ∧
      (∀ i ∈ children.map TaskDict.id, (task.id ++ "-").data <+: i.data) := by
  have hstamp : ∀ d : TaskDict, (stampTime (subTaskOfDict d) env.now).id = d.id := by
    intro d
    unfold stampTime
    split <;> rfl
  have hids : (runIteration st task env tm).state.tasks.map SubTask.id
      = st.tasks.map SubTask.id ++ children.map TaskDict.id := by
    rw [(runIteration_timeout_children st task env tm children h hb).1,
      List.map_append, updateTaskStatus_ids, updateTaskStatus_ids, List.map_map]
    congr 1
    exact List.map_congr_left (fun d _ => hstamp d)
  refine ⟨hids, ?_, ?_⟩
  · rw [hids]
    refine List.Nodup.append hnd hcnd ?_
    intro a ha hac
    obtain ⟨d, hd, hdid⟩ := List.mem_map.mp hac
    exact hfresh d hd (hdid ▸ ha)
  · intro i hi
    obtain ⟨d, hd, hdid⟩ := List.mem_map.mp hi
    exact hdid ▸ hpre d hd

/-- Witness for C5: decomposing task `1` into children `1-1`, `1-2`
keeps ids unique. -/
theorem timeout_children_ids_unique_witness :
    ((runIteration (⟨[⟨"1", "t", "d", "c", "pending", none⟩], "", none⟩ : TMState)
        ⟨"1", "t", "d", "c", "pending", none⟩
        ⟨ImplResult.timeout,
          fun _ => Except.ok (some [⟨"1-1", "x", "y", "z", some "pending", none⟩,
            ⟨"1-2", "x", "y", "z", some "pending", none⟩]),
          (0, ""), Except.error (), "T"⟩
        none).state.tasks.map SubTask.id).Nodup :=
  (timeout_children_ids_unique
      (⟨[⟨"1", "t", "d", "c", "pending", none⟩], "", none⟩ : TMState)
      ⟨"1", "t", "d", "c", "pending", none⟩
      ⟨ImplResult.timeout,
        fun _ => Except.ok (some [⟨"1-1", "x", "y", "z", some "pending", none⟩,
          ⟨"1-2", "x", "y", "z", some "pending", none⟩]),
        (0, ""), Except.error (), "T"⟩
      none
      [⟨"1-1", "x", "y", "z", some "pending", none⟩,
        ⟨"1-2", "x", "y", "z", some "pending", none⟩]
      rfl rfl (by decide) (by decide) (by decide) (by decide)).2.1

/-- C9: `load()` immediately after `replace(tasks)` reproduces the same
project state: reading back the document persisted by `set_tasks` yields
the same task sequence (all six fields) and the same requirement. -/
theorem load_after_set_tasks_roundtrip :
    ∀ (st : TMState) (ts : List TaskDict) (req : Option String),
      loadStateOfDoc (saveDocOf (setTasks st ts req).tasks (setTasks st ts req).requirement)
        = ((setTasks st ts req).tasks, (setTasks st ts req).requirement) := by
  intro st ts req
  simp [loadStateOfDoc, saveDocOf, List.map_map, Function.comp_def, subTaskOfDict_dump]

end AutoCoding
